import Mathlib

/-!
# Verification of the type-metadata registry

A shallow embedding of the `type-metadata` crate: the descriptor model
(`TypeId` / `TypeDef` and their variants from `type_id.rs` / `type_def.rs`),
the interning registry and its compaction algorithm (`registry.rs`), the
namespace validation (`type_id.rs`), and the serialization codec
(`serialize_registry_types` / `RegistryVisitor::visit_map` in `registry.rs`).

Machine integers (`u16` array lengths, `u64` discriminants) are passed
through unchanged by all code under consideration, so they are modelled as
`Nat`.  Rust's recursive `register_type` is modelled with an explicit fuel
parameter; termination of the Rust recursion corresponds to the theorem that
a concrete fuel bound (one more than the number of distinct identities)
always suffices.
-/

set_option autoImplicit false

universe u

/-- The fixed enumeration of primitive kinds (`TypeIdPrimitive` in `type_id.rs`). -/
inductive TypeIdPrimitive where
  | bool
  | char
  | str
  | u8
  | u16
  | u32
  | u64
  | u128
  | i8
  | i16
  | i32
  | i64
  | i128
deriving DecidableEq, Repr

/-- `Namespace<F>` from `type_id.rs`: the ordered segments of a module path.
`σ` is `F::String` (`String` in the meta form, a string symbol `Nat` in the
compact form). -/
structure Namespace (σ : Type u) where
  segments : List σ
deriving DecidableEq, Repr

/-- `NamedField<F>` from `type_def.rs`. `τ` is `F::TypeId`. -/
structure NamedField (σ τ : Type u) where
  name : σ
  ty : τ
deriving DecidableEq, Repr

/-- `UnnamedField<F>` from `type_def.rs`. -/
structure UnnamedField (τ : Type u) where
  ty : τ
deriving DecidableEq, Repr

/-- `ClikeEnumVariant<F>` from `type_def.rs`: a name plus a `u64` discriminant. -/
structure ClikeEnumVariant (σ : Type u) where
  name : σ
  discriminant : Nat
deriving DecidableEq, Repr

/-- `EnumVariant<F>` from `type_def.rs`: unit, struct or tuple-struct variants
(`EnumVariantUnit`, `EnumVariantStruct`, `EnumVariantTupleStruct`). -/
inductive EnumVariant (σ τ : Type u) where
  | unit (name : σ)
  | vstruct (name : σ) (fields : List (NamedField σ τ))
  | vtupleStruct (name : σ) (fields : List (UnnamedField τ))
deriving DecidableEq, Repr

/-- `TypeId<F>` from `type_id.rs` with the per-variant structs
(`TypeIdCustom`, `TypeIdSlice`, `TypeIdArray`, `TypeIdTuple`) inlined as
constructor arguments.  `τ` stands for both `F::TypeId` and
`F::IndirectTypeId` (both are `MetaType` identity tokens in the meta form and
type symbols in the compact form). -/
inductive TypeId (σ τ : Type u) where
  | custom (name : σ) (ns : Namespace σ) (typeParams : List τ)
  | slice (typeParam : τ)
  | array (len : Nat) (typeParam : τ)
  | tuple (typeParams : List τ)
  | primitive (p : TypeIdPrimitive)
deriving DecidableEq, Repr

/-- `TypeDef<F>` from `type_def.rs` with the per-variant structs inlined. -/
inductive TypeDef (σ τ : Type u) where
  | builtin
  | struct (fields : List (NamedField σ τ))
  | tupleStruct (fields : List (UnnamedField τ))
  | clikeEnum (variants : List (ClikeEnumVariant σ))
  | enum (variants : List (EnumVariant σ τ))
  | union (fields : List (NamedField σ τ))
deriving DecidableEq, Repr

/-- Modelled from the spec: `MetaType` (from `meta_type.rs`, which is not
among the provided sources) wraps `core::any::TypeId`, an opaque identity
token that is unique per type and supports only equality/ordering.  We model
the token as a `Nat`. -/
abbrev MetaType := Nat

/-- Meta-form type identifier: strings are `String`, type references are
`MetaType` identity tokens. -/
abbrev MetaTypeId := TypeId String MetaType

/-- Meta-form type definition. -/
abbrev MetaTypeDef := TypeDef String MetaType

/-- Compact-form type identifier: strings and type references are symbols. -/
abbrev CompactTypeId := TypeId Nat Nat

/-- Compact-form type definition. -/
abbrev CompactTypeDef := TypeDef Nat Nat

/-- Modelled from the spec: a `MetaType`'s `type_id()` / `type_def()`
accessors (from the missing `meta_type.rs`) are total functions of the
identity token, so a descriptor graph is an environment assigning to every
identity token its meta-form `TypeId` and `TypeDef`. -/
def Env : Type := MetaType → MetaTypeId × MetaTypeDef

/-- Modelled from the spec: the generic symbol interner of the missing
`interner.rs`, specified in spec §4.1: a value-to-symbol table whose
`symbols()` sequence lists the stored values in ascending symbol order. -/
structure Interner (α : Type) where
  vec : List α
deriving DecidableEq, Repr

/-- `Interner::new`. -/
def Interner.new {α : Type} : Interner α := ⟨[]⟩

/-- Modelled from the spec (§4.1): `intern_or_get(value)` returns
`(false, existing_symbol)` without mutation when the value is present, and
otherwise appends the value and returns `(true, count + 1)`.  Symbols are
1-based. -/
def Interner.internOrGet {α : Type} [DecidableEq α] (i : Interner α) (x : α) :
    (Bool × Nat) × Interner α :=
  match i.vec.findIdx? (fun y => y = x) with
  | some k => ((false, k + 1), i)
  | none => ((true, i.vec.length + 1), ⟨i.vec ++ [x]⟩)

/-- `Interner::symbols`: the stored values in ascending symbol order. -/
def Interner.symbols {α : Type} (i : Interner α) : List α := i.vec

/-- The compacted `(TypeId, TypeDef)` pair (`TypeIdDef` in `registry.rs`);
the Rust field `def` is spelled `defn` because `def` is a Lean keyword. -/
structure TypeIdDef where
  id : CompactTypeId
  defn : CompactTypeDef
deriving DecidableEq, Repr

/-- Insertion into the `BTreeMap<UntrackedSymbol, TypeIdDef>`: the entry list
is kept strictly sorted by key, and inserting an existing key replaces its
value. -/
def btreeInsert (k : Nat) (v : TypeIdDef) : List (Nat × TypeIdDef) → List (Nat × TypeIdDef)
  | [] => [(k, v)]
  | (k', v') :: rest =>
    if k < k' then (k, v) :: (k', v') :: rest
    else if k = k' then (k, v) :: rest
    else (k', v') :: btreeInsert k v rest

/-- `Registry` from `registry.rs`: the string interner, the type-identity
interner, and the `BTreeMap` of compacted entries keyed by identity symbol. -/
structure Registry where
  string_table : Interner String
  type_table : Interner MetaType
  types : List (Nat × TypeIdDef)
deriving DecidableEq, Repr

/-- `Registry::new`. -/
def Registry.new : Registry := ⟨Interner.new, Interner.new, []⟩

/-- `Registry::register_string`: pure delegation to the string interner. -/
def Registry.registerString (r : Registry) (s : String) : Registry × Nat :=
  let res := r.string_table.internOrGet s
  ({ r with string_table := res.2 }, res.1.2)

/-- `Registry::intern_type_id`: interns the identity token, returning the
`inserted` flag and the (untracked) symbol. -/
def Registry.internTypeId (r : Registry) (t : MetaType) : (Bool × Nat) × Registry :=
  let res := r.type_table.internOrGet t
  (res.1, { r with type_table := res.2 })

/-- `self.types.insert(symbol, TypeIdDef { id, def })`. -/
def Registry.insertType (r : Registry) (k : Nat) (v : TypeIdDef) : Registry :=
  { r with types := btreeInsert k v r.types }

/-- `Registry::definitions`: the entry values in storage order. -/
def Registry.definitions (r : Registry) : List TypeIdDef := r.types.map Prod.snd

/-- `Registry::iter`: the key/value pairs in storage order. -/
def Registry.iter (r : Registry) : List (Nat × TypeIdDef) := r.types

/-- `Registry::strings`: all interned strings in symbol order. -/
def Registry.strings (r : Registry) : List String := r.string_table.symbols

/-- Registers a list of strings left to right
(the `map(register_string)` loops of the compaction impls). -/
def regStrings : Registry → List String → Registry × List Nat
  | r, [] => (r, [])
  | r, s :: rest =>
    let p := r.registerString s
    let q := regStrings p.1 rest
    (q.1, p.2 :: q.2)

/-- Registers a list of `MetaType` tokens left to right through the
registration callback `f` (the `map(register_type)` loops); `f` abstracts
`Registry::register_type`, which is tied back by fuel below. -/
def regTypes (f : Registry → MetaType → Option (Registry × Nat)) :
    Registry → List MetaType → Option (Registry × List Nat)
  | r, [] => some (r, [])
  | r, t :: rest =>
    match f r t with
    | none => none
    | some (r1, s) =>
      match regTypes f r1 rest with
      | none => none
      | some (r2, ss) => some (r2, s :: ss)

/-- `Namespace::into_compact`: every segment becomes a string symbol. -/
def Namespace.intoCompact (ns : Namespace String) (r : Registry) :
    Registry × Namespace Nat :=
  let q := regStrings r ns.segments
  (q.1, ⟨q.2⟩)

/-- `NamedField::into_compact`: the name becomes a string symbol, the field
type is registered through `f`. -/
def NamedField.intoCompact (f : Registry → MetaType → Option (Registry × Nat))
    (fl : NamedField String MetaType) (r : Registry) :
    Option (Registry × NamedField Nat Nat) :=
  let p := r.registerString fl.name
  (f p.1 fl.ty).map (fun rs => (rs.1, ⟨p.2, rs.2⟩))

/-- The `map(into_compact)` loop over named fields. -/
def compactNamedFields (f : Registry → MetaType → Option (Registry × Nat)) :
    Registry → List (NamedField String MetaType) →
    Option (Registry × List (NamedField Nat Nat))
  | r, [] => some (r, [])
  | r, fl :: rest =>
    match fl.intoCompact f r with
    | none => none
    | some (r1, fl') =>
      match compactNamedFields f r1 rest with
      | none => none
      | some (r2, fls) => some (r2, fl' :: fls)

/-- `UnnamedField::into_compact`: the field type is registered through `f`. -/
def UnnamedField.intoCompact (f : Registry → MetaType → Option (Registry × Nat))
    (fl : UnnamedField MetaType) (r : Registry) :
    Option (Registry × UnnamedField Nat) :=
  (f r fl.ty).map (fun rs => (rs.1, ⟨rs.2⟩))

/-- The `map(into_compact)` loop over unnamed fields. -/
def compactUnnamedFields (f : Registry → MetaType → Option (Registry × Nat)) :
    Registry → List (UnnamedField MetaType) →
    Option (Registry × List (UnnamedField Nat))
  | r, [] => some (r, [])
  | r, fl :: rest =>
    match fl.intoCompact f r with
    | none => none
    | some (r1, fl') =>
      match compactUnnamedFields f r1 rest with
      | none => none
      | some (r2, fls) => some (r2, fl' :: fls)

/-- `ClikeEnumVariant::into_compact`: the name becomes a string symbol, the
discriminant passes through unchanged. -/
def ClikeEnumVariant.intoCompact (v : ClikeEnumVariant String) (r : Registry) :
    Registry × ClikeEnumVariant Nat :=
  let p := r.registerString v.name
  (p.1, ⟨p.2, v.discriminant⟩)

/-- The `map(into_compact)` loop over C-like enum variants. -/
def compactClikeVariants : Registry → List (ClikeEnumVariant String) →
    Registry × List (ClikeEnumVariant Nat)
  | r, [] => (r, [])
  | r, v :: rest =>
    let p := v.intoCompact r
    let q := compactClikeVariants p.1 rest
    (q.1, p.2 :: q.2)

/-- `EnumVariant::into_compact`, dispatching to
`EnumVariantUnit` / `EnumVariantStruct` / `EnumVariantTupleStruct`. -/
def EnumVariant.intoCompact (f : Registry → MetaType → Option (Registry × Nat))
    (v : EnumVariant String MetaType) (r : Registry) :
    Option (Registry × EnumVariant Nat Nat) :=
  match v with
  | .unit name =>
    let p := r.registerString name
    some (p.1, .unit p.2)
  | .vstruct name fields =>
    let p := r.registerString name
    (compactNamedFields f p.1 fields).map (fun rs => (rs.1, .vstruct p.2 rs.2))
  | .vtupleStruct name fields =>
    let p := r.registerString name
    (compactUnnamedFields f p.1 fields).map (fun rs => (rs.1, .vtupleStruct p.2 rs.2))

/-- The `map(into_compact)` loop over enum variants. -/
def compactEnumVariants (f : Registry → MetaType → Option (Registry × Nat)) :
    Registry → List (EnumVariant String MetaType) →
    Option (Registry × List (EnumVariant Nat Nat))
  | r, [] => some (r, [])
  | r, v :: rest =>
    match v.intoCompact f r with
    | none => none
    | some (r1, v') =>
      match compactEnumVariants f r1 rest with
      | none => none
      | some (r2, vs) => some (r2, v' :: vs)

/-- `TypeId::into_compact` from `type_id.rs`, covering the per-variant impls
(`TypeIdCustom`, `TypeIdSlice`, `TypeIdArray`, `TypeIdTuple`, primitives pass
through). -/
def TypeId.intoCompact (f : Registry → MetaType → Option (Registry × Nat))
    (tid : MetaTypeId) (r : Registry) : Option (Registry × CompactTypeId) :=
  match tid with
  | .custom name ns params =>
    let p := r.registerString name
    let q := ns.intoCompact p.1
    match regTypes f q.1 params with
    | none => none
    | some (r3, ss) => some (r3, .custom p.2 q.2 ss)
  | .slice t => (f r t).map (fun rs => (rs.1, .slice rs.2))
  | .array len t => (f r t).map (fun rs => (rs.1, .array len rs.2))
  | .tuple params => (regTypes f r params).map (fun rs => (rs.1, .tuple rs.2))
  | .primitive p => some (r, .primitive p)

/-- `TypeDef::into_compact` from `type_def.rs`, covering the per-variant
impls (`Builtin` passes through; the others compact their fields/variants). -/
def TypeDef.intoCompact (f : Registry → MetaType → Option (Registry × Nat))
    (td : MetaTypeDef) (r : Registry) : Option (Registry × CompactTypeDef) :=
  match td with
  | .builtin => some (r, .builtin)
  | .struct fields => (compactNamedFields f r fields).map (fun rs => (rs.1, .struct rs.2))
  | .tupleStruct fields =>
    (compactUnnamedFields f r fields).map (fun rs => (rs.1, .tupleStruct rs.2))
  | .clikeEnum variants =>
    let p := compactClikeVariants r variants
    some (p.1, .clikeEnum p.2)
  | .enum variants => (compactEnumVariants f r variants).map (fun rs => (rs.1, .enum rs.2))
  | .union fields => (compactNamedFields f r fields).map (fun rs => (rs.1, .union rs.2))

/-- `Registry::register_type` from `registry.rs`: intern the identity token;
if it was already known return its symbol at once (the cycle-breaking guard),
otherwise compact the descriptor's `TypeId` and `TypeDef` recursively and
insert the resulting entry under the symbol.  The Rust recursion is modelled
with a fuel parameter; `none` means the fuel ran out. -/
def registerType (env : Env) : Nat → Registry → MetaType → Option (Registry × Nat)
  | 0, _, _ => none
  | fuel + 1, r, t =>
    let res := r.internTypeId t
    let inserted := res.1.1
    let symbol := res.1.2
    let r1 := res.2
    if inserted then
      match TypeId.intoCompact (registerType env fuel) (env t).1 r1 with
      | none => none
      | some (r2, compactId) =>
        match TypeDef.intoCompact (registerType env fuel) (env t).2 r2 with
        | none => none
        | some (r3, compactDef) =>
          some (r3.insertType symbol ⟨compactId, compactDef⟩, symbol)
    else some (r1, symbol)

/-- Modelled from the spec: `is_rust_identifier` lives in the repository's
`utils.rs`, which is not among the provided sources; per spec §3 a segment is
valid iff it is non-empty, its first character is a letter or underscore, and
every later character is alphanumeric or an underscore. -/
def isRustIdentifier (s : String) : Bool :=
  match s.data with
  | [] => false
  | c :: cs => (c = '_' || c.isAlpha) && cs.all (fun d => d = '_' || d.isAlphanum)

/-- `NamespaceError` from `type_id.rs`. -/
inductive NamespaceError where
  | missingSegments
  | invalidIdentifier (segment : Nat)
deriving DecidableEq, Repr

/-- `Namespace::new` from `type_id.rs`: empty input fails with
`MissingSegments`; otherwise the position of the first segment that is not a
Rust identifier is reported, else the segments are stored as given. -/
def Namespace.new (segments : List String) :
    Except NamespaceError (Namespace String) :=
  if segments.isEmpty then .error .missingSegments
  else
    match segments.findIdx? (fun seg => !isRustIdentifier seg) with
    | some errAt => .error (.invalidIdentifier errAt)
    | none => .ok ⟨segments⟩

/-- Modelled from the spec: Rust's `str::split("::")` (standard library, not
repository code) splits at every occurrence of the separator; an input
without the separator yields a single segment, so the result is never empty. -/
def splitDoubleColonAux : List Char → List Char → List String
  | [], acc => [⟨acc.reverse⟩]
  | [c], acc => [⟨(c :: acc).reverse⟩]
  | c1 :: c2 :: rest, acc =>
    if c1 = ':' ∧ c2 = ':' then ⟨acc.reverse⟩ :: splitDoubleColonAux rest []
    else splitDoubleColonAux (c2 :: rest) (c1 :: acc)

/-- `module_path.split("::")` as a list of segment strings. -/
def splitDoubleColon (s : String) : List String := splitDoubleColonAux s.data []

/-- `Namespace::from_module_path` from `type_id.rs`: split the path at `::`
and delegate to `Namespace::new`. -/
def Namespace.fromModulePath (modulePath : String) :
    Except NamespaceError (Namespace String) :=
  Namespace.new (splitDoubleColon modulePath)

/-- `Namespace::prelude` from `type_id.rs`: the empty namespace, constructed
directly without validation. -/
def Namespace.prelude : Namespace String := ⟨[]⟩

/-- The serialized form of a registry (spec §6): the string table in symbol
order, and the entry values in storage order. -/
structure SerialRegistry where
  strings : List String
  types : List TypeIdDef
deriving DecidableEq, Repr

/-- The `Serialize` impl of `Registry`: the string interner's `symbols()`
sequence, and — via `serialize_registry_types` — the entry values (never the
identity-symbol keys) in storage order; the type-identity interner is
skipped. -/
def serializeRegistry (r : Registry) : SerialRegistry :=
  ⟨r.string_table.vec, r.types.map Prod.snd⟩

/-- One top-level field of the serialized map, as consumed by
`RegistryVisitor::visit_map` (the `Field` enum in `registry.rs`). -/
inductive RegField where
  | strings (value : List String)
  | types (value : List TypeIdDef)
deriving DecidableEq, Repr

/-- The decode errors produced by `RegistryVisitor::visit_map`. -/
inductive DeError where
  | duplicateField (name : String)
  | missingField (name : String)
deriving DecidableEq, Repr

/-- The key-reading loop of `RegistryVisitor::visit_map`: each field may be
set at most once, a repeat yields a duplicate-field error. -/
def visitMapLoop : List RegField → Option (List String) → Option (List TypeIdDef) →
    Except DeError (Option (List String) × Option (List TypeIdDef))
  | [], ss, ts => .ok (ss, ts)
  | .strings v :: rest, ss, ts =>
    if ss.isSome then .error (.duplicateField "strings")
    else visitMapLoop rest (some v) ts
  | .types v :: rest, ss, ts =>
    if ts.isSome then .error (.duplicateField "types")
    else visitMapLoop rest ss (some v)

/-- `RegistryVisitor::visit_map` from `registry.rs`: read the fields, then
unwrap `types` (reporting, as the source does, a missing `"strings"` field),
renumber the entries so that 0-based list position `i` is keyed by the fresh
identity symbol `i + 1`, unwrap `strings`, and rebuild the registry with an
empty type-identity interner. -/
def RegistryVisitor.visitMap (fields : List RegField) : Except DeError Registry := do
  let st ← visitMapLoop fields none none
  let types ←
    match st.2 with
    | none => Except.error (DeError.missingField "strings")
    | some v => Except.ok v
  let typesMap := types.enum.map (fun it => (it.1 + 1, it.2))
  let strings ←
    match st.1 with
    | none => Except.error (DeError.missingField "strings")
    | some v => Except.ok v
  Except.ok { string_table := ⟨strings⟩, type_table := Interner.new, types := typesMap }

/-- The `Serialize` impl emits the struct fields in declaration order:
`strings` first, then `types`. -/
def serialFields (s : SerialRegistry) : List RegField :=
  [RegField.strings s.strings, RegField.types s.types]

/-- The identity tokens embedded in a meta-form `TypeId` (the references its
compaction registers). -/
def idTokens : MetaTypeId → List MetaType
  | .custom _ _ params => params
  | .slice t => [t]
  | .array _ t => [t]
  | .tuple params => params
  | .primitive _ => []

/-- The identity tokens embedded in one enum variant. -/
def variantTokens : EnumVariant String MetaType → List MetaType
  | .unit _ => []
  | .vstruct _ fields => fields.map (fun fl => fl.ty)
  | .vtupleStruct _ fields => fields.map (fun fl => fl.ty)

/-- The identity tokens embedded in a meta-form `TypeDef`. -/
def defTokens : MetaTypeDef → List MetaType
  | .builtin => []
  | .struct fields => fields.map (fun fl => fl.ty)
  | .tupleStruct fields => fields.map (fun fl => fl.ty)
  | .clikeEnum _ => []
  | .enum variants => (variants.map variantTokens).flatten
  | .union fields => fields.map (fun fl => fl.ty)

/-- A descriptor graph is closed over a finite set `S` of identity tokens:
every token reachable from a member of `S` is again in `S`.  In Rust this is
automatic — a program has finitely many types. -/
def ClosedEnv (S : Finset MetaType) (env : Env) : Prop :=
  ∀ u ∈ S, (∀ v ∈ idTokens (env u).1, v ∈ S) ∧ (∀ v ∈ defTokens (env u).2, v ∈ S)

/-- The type-identity interner's stored tokens. -/
def tvec (r : Registry) : List MetaType := r.type_table.vec

/-- The string interner's stored strings. -/
def svec (r : Registry) : List String := r.string_table.vec

/-- Number of interned identity tokens. -/
def tlen (r : Registry) : Nat := (tvec r).length

/-- The set of identity symbols that own an entry in the entries store. -/
def keyset (r : Registry) : Finset Nat := (r.types.map Prod.fst).toFinset

/-- The entries store is strictly sorted by identity symbol (the `BTreeMap`
invariant). -/
def SortedKeys (r : Registry) : Prop := (r.types.map Prod.fst).Chain' (· < ·)

/-- How one complete registry operation extends the state: both interners
only grow (by appending), the entry keys gain exactly the symbols interned by
the operation, and sortedness of the entry keys is preserved. -/
def RegExt (r r' : Registry) : Prop :=
  tvec r <+: tvec r' ∧ svec r <+: svec r' ∧
  keyset r' = keyset r ∪ Finset.Ioc (tlen r) (tlen r') ∧
  (SortedKeys r → SortedKeys r')

/-- The identity tokens of `S` not yet interned in `r`: the termination
measure of `register_type`. -/
def countU (S : Finset MetaType) (r : Registry) : Nat :=
  (S.filter (fun u => u ∉ tvec r)).card

/-- Shape of a `TypeId`: the variant, its field arities, and its numeric or
enumerated leaves (C6's notion of what compaction must preserve). -/
inductive IdShape where
  | custom (nsLen : Nat) (paramsLen : Nat)
  | slice
  | array (len : Nat)
  | tuple (paramsLen : Nat)
  | primitive (p : TypeIdPrimitive)
deriving DecidableEq, Repr

/-- Shape of one enum variant. -/
inductive VariantShape where
  | unit
  | vstruct (fieldsLen : Nat)
  | vtupleStruct (fieldsLen : Nat)
deriving DecidableEq, Repr

/-- Shape of a `TypeDef`: the variant, its arities, and its discriminant
leaves. -/
inductive DefShape where
  | builtin
  | struct (fieldsLen : Nat)
  | tupleStruct (fieldsLen : Nat)
  | clikeEnum (discriminants : List Nat)
  | enum (variants : List VariantShape)
  | union (fieldsLen : Nat)
deriving DecidableEq, Repr

/-- The shape of a `TypeId` in either form. -/
def idShape {σ τ : Type} : TypeId σ τ → IdShape
  | .custom _ ns params => .custom ns.segments.length params.length
  | .slice _ => .slice
  | .array len _ => .array len
  | .tuple params => .tuple params.length
  | .primitive p => .primitive p

/-- The shape of an enum variant in either form. -/
def variantShape {σ τ : Type} : EnumVariant σ τ → VariantShape
  | .unit _ => .unit
  | .vstruct _ fields => .vstruct fields.length
  | .vtupleStruct _ fields => .vtupleStruct fields.length

/-- The shape of a `TypeDef` in either form. -/
def defShape {σ τ : Type} : TypeDef σ τ → DefShape
  | .builtin => .builtin
  | .struct fields => .struct fields.length
  | .tupleStruct fields => .tupleStruct fields.length
  | .clikeEnum variants => .clikeEnum (variants.map (fun v => v.discriminant))
  | .enum variants => .enum (variants.map variantShape)
  | .union fields => .union fields.length

/-- A self-referential one-type graph: identity 0's `TypeDef` contains a
`TypeId` reference to identity 0 itself. -/
def envSelf : Env := fun _ =>
  (TypeId.custom "T" ⟨[]⟩ [], TypeDef.tupleStruct [⟨0⟩])

/-- The graph of C8's scenario: identity 0 is the struct `pkg::Point` with
fields `x` and `y` of the primitive type `i32` (identity 1). -/
def envPoint : Env := fun t =>
  match t with
  | 0 => (TypeId.custom "Point" ⟨["pkg", "Point"]⟩ [],
          TypeDef.struct [⟨"x", 1⟩, ⟨"y", 1⟩])
  | _ => (TypeId.primitive TypeIdPrimitive.i32, TypeDef.builtin)

/-- The registry produced by registering identity 0 of `envSelf` into an
empty registry. -/
def rSelf : Registry :=
  ⟨⟨["T"]⟩, ⟨[0]⟩,
   [(1, ⟨TypeId.custom 1 ⟨[]⟩ [], TypeDef.tupleStruct [⟨1⟩]⟩)]⟩

/-- The registry produced by registering identity 0 of `envPoint` into an
empty registry. -/
def rPoint : Registry :=
  ⟨⟨["Point", "pkg", "x", "y"]⟩, ⟨[0, 1]⟩,
   [(1, ⟨TypeId.custom 1 ⟨[2, 1]⟩ [], TypeDef.struct [⟨3, 2⟩, ⟨4, 2⟩]⟩),
    (2, ⟨TypeId.primitive TypeIdPrimitive.i32, TypeDef.builtin⟩)]⟩

/-- `f` (a registration callback standing for `register_type`) only ever
extends the registry on success. -/
def Grows (f : Registry → MetaType → Option (Registry × Nat)) : Prop :=
  ∀ r t r' s, f r t = some (r', s) → RegExt r r'

/-!  ## Helper lemmas: prefixes, the interner, and `BTreeMap` insertion  -/

theorem pfx_rfl {α : Type} (l : List α) : l <+: l := ⟨[], List.append_nil l⟩

theorem pfx_trans {α : Type} {l1 l2 l3 : List α} (h1 : l1 <+: l2) (h2 : l2 <+: l3) :
    l1 <+: l3 := by
  obtain ⟨a, ha⟩ := h1
  obtain ⟨b, hb⟩ := h2
  exact ⟨a ++ b, by rw [← hb, ← ha, List.append_assoc]⟩

theorem pfx_len {α : Type} {l1 l2 : List α} (h : l1 <+: l2) : l1.length ≤ l2.length := by
  obtain ⟨a, ha⟩ := h
  subst ha
  simp

theorem pfx_subset {α : Type} {l1 l2 : List α} (h : l1 <+: l2) : ∀ x ∈ l1, x ∈ l2 := by
  obtain ⟨a, ha⟩ := h
  subst ha
  intro x hx
  exact List.mem_append_left a hx

theorem pfx_findIdx {α : Type} {p : α → Bool} {l1 l2 : List α} {k : Nat}
    (h : l1 <+: l2) (hk : l1.findIdx? p = some k) : l2.findIdx? p = some k := by
  obtain ⟨a, ha⟩ := h
  subst ha
  rw [List.findIdx?_append, hk]
  rfl

theorem findIdx_none_iff_not_mem {l : List Nat} {t : Nat} :
    l.findIdx? (fun y => y = t) = none ↔ t ∉ l := by
  rw [List.findIdx?_eq_none_iff]
  constructor
  · intro h ht
    have := h t ht
    simp at this
  · intro h x hx
    simp only [decide_eq_false_iff_not]
    intro hxt
    exact h (hxt ▸ hx)

theorem internTypeId_found {r : Registry} {t : MetaType} {k : Nat}
    (h : (tvec r).findIdx? (fun y => y = t) = some k) :
    r.internTypeId t = ((false, k + 1), r) := by
  simp only [Registry.internTypeId, Interner.internOrGet, tvec] at h ⊢
  rw [h]

theorem internTypeId_new {r : Registry} {t : MetaType}
    (h : t ∉ tvec r) :
    r.internTypeId t =
      ((true, tlen r + 1),
        { r with type_table := ⟨tvec r ++ [t]⟩ }) := by
  have hn : (tvec r).findIdx? (fun y => y = t) = none := findIdx_none_iff_not_mem.mpr h
  simp only [Registry.internTypeId, Interner.internOrGet, tvec, tlen] at hn ⊢
  rw [hn]

theorem btreeInsert_keys_toFinset (k : Nat) (v : TypeIdDef) (ts : List (Nat × TypeIdDef)) :
    ((btreeInsert k v ts).map Prod.fst).toFinset = insert k (ts.map Prod.fst).toFinset := by
  induction ts with
  | nil => simp [btreeInsert]
  | cons hd tl ih =>
    obtain ⟨k', v'⟩ := hd
    by_cases h1 : k < k'
    · simp [btreeInsert, h1]
    · by_cases h2 : k = k'
      · subst h2
        simp [btreeInsert, h1, Finset.insert_idem]
      · simp only [btreeInsert, if_neg h1, if_neg h2, List.map_cons, List.toFinset_cons, ih]
        exact Finset.Insert.comm _ _ _

theorem btreeInsert_keys_mem {k : Nat} {v : TypeIdDef} {ts : List (Nat × TypeIdDef)} {a : Nat}
    (h : a ∈ (btreeInsert k v ts).map Prod.fst) : a = k ∨ a ∈ ts.map Prod.fst := by
  have := btreeInsert_keys_toFinset k v ts
  have ha : a ∈ ((btreeInsert k v ts).map Prod.fst).toFinset := List.mem_toFinset.mpr h
  rw [this, Finset.mem_insert] at ha
  rcases ha with ha | ha
  · exact Or.inl ha
  · exact Or.inr (List.mem_toFinset.mp ha)

theorem btreeInsert_pairwise {k : Nat} {v : TypeIdDef} {ts : List (Nat × TypeIdDef)}
    (h : (ts.map Prod.fst).Pairwise (· < ·)) :
    ((btreeInsert k v ts).map Prod.fst).Pairwise (· < ·) := by
  induction ts with
  | nil => simp [btreeInsert]
  | cons hd tl ih =>
    obtain ⟨k', v'⟩ := hd
    simp only [List.map_cons, List.pairwise_cons] at h
    by_cases h1 : k < k'
    · simp only [btreeInsert, if_pos h1, List.map_cons, List.pairwise_cons]
      refine ⟨?_, h.1, h.2⟩
      intro a ha
      simp only [List.mem_cons] at ha
      rcases ha with rfl | ha
      · exact h1
      · exact lt_trans h1 (h.1 a ha)
    · by_cases h2 : k = k'
      · subst h2
        have he : btreeInsert k v ((k, v') :: tl) = (k, v) :: tl := by
          simp [btreeInsert, h1]
        rw [he, List.map_cons, List.pairwise_cons]
        exact h
      · have hk : k' < k := by omega
        simp only [btreeInsert, if_neg h1, if_neg h2, List.map_cons, List.pairwise_cons]
        refine ⟨?_, ih h.2⟩
        intro a ha
        rcases btreeInsert_keys_mem ha with rfl | ha
        · exact hk
        · exact h.1 a ha

theorem sortedKeys_insertType {r : Registry} {k : Nat} {v : TypeIdDef}
    (h : SortedKeys r) : SortedKeys (r.insertType k v) := by
  simp only [SortedKeys, Registry.insertType, List.chain'_iff_pairwise] at h ⊢
  exact btreeInsert_pairwise h

/-!  ## Helper lemmas: registry extension (`RegExt`)  -/

theorem regExt_rfl (r : Registry) : RegExt r r := by
  refine ⟨pfx_rfl _, pfx_rfl _, ?_, fun h => h⟩
  rw [Finset.Ioc_self, Finset.union_empty]

theorem regExt_trans {r1 r2 r3 : Registry} (h1 : RegExt r1 r2) (h2 : RegExt r2 r3) :
    RegExt r1 r3 := by
  obtain ⟨t12, s12, k12, o12⟩ := h1
  obtain ⟨t23, s23, k23, o23⟩ := h2
  refine ⟨pfx_trans t12 t23, pfx_trans s12 s23, ?_, fun h => o23 (o12 h)⟩
  have l12 : tlen r1 ≤ tlen r2 := pfx_len t12
  have l23 : tlen r2 ≤ tlen r3 := pfx_len t23
  rw [k23, k12, Finset.union_assoc, Finset.Ioc_union_Ioc_eq_Ioc l12 l23]

theorem regExt_registerString (r : Registry) (s : String) :
    RegExt r (r.registerString s).1 := by
  have htv : tvec (r.registerString s).1 = tvec r := rfl
  have hty : (r.registerString s).1.types = r.types := rfl
  refine ⟨htv ▸ pfx_rfl _, ?_, ?_, ?_⟩
  · simp only [svec, Registry.registerString, Interner.internOrGet]
    cases h : (r.string_table.vec.findIdx? fun y => y = s) with
    | none => exact ⟨[s], rfl⟩
    | some k => exact pfx_rfl _
  · simp only [keyset, hty, tlen, htv, Finset.Ioc_self, Finset.union_empty]
  · intro h
    simpa only [SortedKeys, hty] using h

theorem regExt_regStrings (r : Registry) (l : List String) :
    RegExt r (regStrings r l).1 := by
  induction l generalizing r with
  | nil => exact regExt_rfl r
  | cons s rest ih =>
    exact regExt_trans (regExt_registerString r s) (ih (r.registerString s).1)

theorem regExt_regTypes {f : Registry → MetaType → Option (Registry × Nat)}
    (hf : Grows f) {r r' : Registry} {ts : List MetaType} {ss : List Nat}
    (h : regTypes f r ts = some (r', ss)) : RegExt r r' := by
  induction ts generalizing r ss with
  | nil =>
    simp only [regTypes, Option.some.injEq, Prod.mk.injEq] at h
    exact h.1 ▸ regExt_rfl r
  | cons t rest ih =>
    cases h1 : f r t with
    | none => simp [regTypes, h1] at h
    | some p =>
      obtain ⟨r1, s⟩ := p
      cases h2 : regTypes f r1 rest with
      | none => simp [regTypes, h1, h2] at h
      | some q =>
        obtain ⟨r2, ss2⟩ := q
        simp only [regTypes, h1, h2, Option.some.injEq, Prod.mk.injEq] at h
        obtain ⟨hr, hs⟩ := h
        subst hr
        exact regExt_trans (hf r t r1 s h1) (ih h2)

theorem regExt_namedField {f : Registry → MetaType → Option (Registry × Nat)}
    (hf : Grows f) {fl : NamedField String MetaType} {r r' : Registry}
    {fl' : NamedField Nat Nat} (h : fl.intoCompact f r = some (r', fl')) :
    RegExt r r' := by
  simp only [NamedField.intoCompact, Option.map_eq_some'] at h
  obtain ⟨⟨r1, s⟩, hp, he⟩ := h
  injection he with he1 he2
  subst he1
  exact regExt_trans (regExt_registerString r fl.name) (hf _ _ _ _ hp)

theorem regExt_compactNamedFields {f : Registry → MetaType → Option (Registry × Nat)}
    (hf : Grows f) {fls : List (NamedField String MetaType)} {r r' : Registry}
    {out : List (NamedField Nat Nat)} (h : compactNamedFields f r fls = some (r', out)) :
    RegExt r r' := by
  induction fls generalizing r out with
  | nil =>
    simp only [compactNamedFields, Option.some.injEq, Prod.mk.injEq] at h
    exact h.1 ▸ regExt_rfl r
  | cons fl rest ih =>
    cases h1 : fl.intoCompact f r with
    | none => simp [compactNamedFields, h1] at h
    | some p =>
      obtain ⟨r1, fl1⟩ := p
      cases h2 : compactNamedFields f r1 rest with
      | none => simp [compactNamedFields, h1, h2] at h
      | some q =>
        obtain ⟨r2, fls2⟩ := q
        simp only [compactNamedFields, h1, h2, Option.some.injEq, Prod.mk.injEq] at h
        obtain ⟨hr, hs⟩ := h
        subst hr
        exact regExt_trans (regExt_namedField hf h1) (ih h2)

theorem regExt_unnamedField {f : Registry → MetaType → Option (Registry × Nat)}
    (hf : Grows f) {fl : UnnamedField MetaType} {r r' : Registry}
    {fl' : UnnamedField Nat} (h : fl.intoCompact f r = some (r', fl')) :
    RegExt r r' := by
  simp only [UnnamedField.intoCompact, Option.map_eq_some'] at h
  obtain ⟨⟨r1, s⟩, hp, he⟩ := h
  injection he with he1 he2
  subst he1
  exact hf _ _ _ _ hp

theorem regExt_compactUnnamedFields {f : Registry → MetaType → Option (Registry × Nat)}
    (hf : Grows f) {fls : List (UnnamedField MetaType)} {r r' : Registry}
    {out : List (UnnamedField Nat)} (h : compactUnnamedFields f r fls = some (r', out)) :
    RegExt r r' := by
  induction fls generalizing r out with
  | nil =>
    simp only [compactUnnamedFields, Option.some.injEq, Prod.mk.injEq] at h
    exact h.1 ▸ regExt_rfl r
  | cons fl rest ih =>
    cases h1 : fl.intoCompact f r with
    | none => simp [compactUnnamedFields, h1] at h
    | some p =>
      obtain ⟨r1, fl1⟩ := p
      cases h2 : compactUnnamedFields f r1 rest with
      | none => simp [compactUnnamedFields, h1, h2] at h
      | some q =>
        obtain ⟨r2, fls2⟩ := q
        simp only [compactUnnamedFields, h1, h2, Option.some.injEq, Prod.mk.injEq] at h
        obtain ⟨hr, hs⟩ := h
        subst hr
        exact regExt_trans (regExt_unnamedField hf h1) (ih h2)

theorem regExt_compactClikeVariants (r : Registry) (vs : List (ClikeEnumVariant String)) :
    RegExt r (compactClikeVariants r vs).1 := by
  induction vs generalizing r with
  | nil => exact regExt_rfl r
  | cons v rest ih =>
    exact regExt_trans (regExt_registerString r v.name) (ih _)

theorem regExt_enumVariant {f : Registry → MetaType → Option (Registry × Nat)}
    (hf : Grows f) {v : EnumVariant String MetaType} {r r' : Registry}
    {v' : EnumVariant Nat Nat} (h : v.intoCompact f r = some (r', v')) :
    RegExt r r' := by
  cases v with
  | unit name =>
    simp only [EnumVariant.intoCompact, Option.some.injEq, Prod.mk.injEq] at h
    exact h.1 ▸ regExt_registerString r name
  | vstruct name fields =>
    simp only [EnumVariant.intoCompact, Option.map_eq_some'] at h
    obtain ⟨⟨r1, fls⟩, hp, he⟩ := h
    injection he with he1 he2
    subst he1
    exact regExt_trans (regExt_registerString r name) (regExt_compactNamedFields hf hp)
  | vtupleStruct name fields =>
    simp only [EnumVariant.intoCompact, Option.map_eq_some'] at h
    obtain ⟨⟨r1, fls⟩, hp, he⟩ := h
    injection he with he1 he2
    subst he1
    exact regExt_trans (regExt_registerString r name) (regExt_compactUnnamedFields hf hp)

theorem regExt_compactEnumVariants {f : Registry → MetaType → Option (Registry × Nat)}
    (hf : Grows f) {vs : List (EnumVariant String MetaType)} {r r' : Registry}
    {out : List (EnumVariant Nat Nat)} (h : compactEnumVariants f r vs = some (r', out)) :
    RegExt r r' := by
  induction vs generalizing r out with
  | nil =>
    simp only [compactEnumVariants, Option.some.injEq, Prod.mk.injEq] at h
    exact h.1 ▸ regExt_rfl r
  | cons v rest ih =>
    cases h1 : v.intoCompact f r with
    | none => simp [compactEnumVariants, h1] at h
    | some p =>
      obtain ⟨r1, v1⟩ := p
      cases h2 : compactEnumVariants f r1 rest with
      | none => simp [compactEnumVariants, h1, h2] at h
      | some q =>
        obtain ⟨r2, vs2⟩ := q
        simp only [compactEnumVariants, h1, h2, Option.some.injEq, Prod.mk.injEq] at h
        obtain ⟨hr, hs⟩ := h
        subst hr
        exact regExt_trans (regExt_enumVariant hf h1) (ih h2)

theorem regExt_typeIdIntoCompact {f : Registry → MetaType → Option (Registry × Nat)}
    (hf : Grows f) {tid : MetaTypeId} {r r' : Registry} {out : CompactTypeId}
    (h : tid.intoCompact f r = some (r', out)) : RegExt r r' := by
  cases tid with
  | custom name ns params =>
    cases h1 : regTypes f (ns.intoCompact (r.registerString name).1).1 params with
    | none => simp [TypeId.intoCompact, h1] at h
    | some q =>
      obtain ⟨r3, ss⟩ := q
      simp only [TypeId.intoCompact, h1, Option.some.injEq, Prod.mk.injEq] at h
      have e1 := regExt_registerString r name
      have e2 : RegExt (r.registerString name).1 (ns.intoCompact (r.registerString name).1).1 :=
        regExt_regStrings _ ns.segments
      exact h.1 ▸ regExt_trans e1 (regExt_trans e2 (regExt_regTypes hf h1))
  | slice t =>
    simp only [TypeId.intoCompact, Option.map_eq_some'] at h
    obtain ⟨⟨r1, s⟩, hp, he⟩ := h
    injection he with he1 he2
    subst he1
    exact hf _ _ _ _ hp
  | array len t =>
    simp only [TypeId.intoCompact, Option.map_eq_some'] at h
    obtain ⟨⟨r1, s⟩, hp, he⟩ := h
    injection he with he1 he2
    subst he1
    exact hf _ _ _ _ hp
  | tuple params =>
    simp only [TypeId.intoCompact, Option.map_eq_some'] at h
    obtain ⟨⟨r1, ss⟩, hp, he⟩ := h
    injection he with he1 he2
    subst he1
    exact regExt_regTypes hf hp
  | primitive p =>
    simp only [TypeId.intoCompact, Option.some.injEq, Prod.mk.injEq] at h
    exact h.1 ▸ regExt_rfl r

theorem regExt_typeDefIntoCompact {f : Registry → MetaType → Option (Registry × Nat)}
    (hf : Grows f) {td : MetaTypeDef} {r r' : Registry} {out : CompactTypeDef}
    (h : td.intoCompact f r = some (r', out)) : RegExt r r' := by
  cases td with
  | builtin =>
    simp only [TypeDef.intoCompact, Option.some.injEq, Prod.mk.injEq] at h
    exact h.1 ▸ regExt_rfl r
  | struct fields =>
    simp only [TypeDef.intoCompact, Option.map_eq_some'] at h
    obtain ⟨⟨r1, fls⟩, hp, he⟩ := h
    injection he with he1 he2
    subst he1
    exact regExt_compactNamedFields hf hp
  | tupleStruct fields =>
    simp only [TypeDef.intoCompact, Option.map_eq_some'] at h
    obtain ⟨⟨r1, fls⟩, hp, he⟩ := h
    injection he with he1 he2
    subst he1
    exact regExt_compactUnnamedFields hf hp
  | clikeEnum variants =>
    simp only [TypeDef.intoCompact, Option.some.injEq, Prod.mk.injEq] at h
    exact h.1 ▸ regExt_compactClikeVariants r variants
  | enum variants =>
    simp only [TypeDef.intoCompact, Option.map_eq_some'] at h
    obtain ⟨⟨r1, vs⟩, hp, he⟩ := h
    injection he with he1 he2
    subst he1
    exact regExt_compactEnumVariants hf hp
  | union fields =>
    simp only [TypeDef.intoCompact, Option.map_eq_some'] at h
    obtain ⟨⟨r1, fls⟩, hp, he⟩ := h
    injection he with he1 he2
    subst he1
    exact regExt_compactNamedFields hf hp

theorem keyset_insertType (r : Registry) (k : Nat) (v : TypeIdDef) :
    keyset (r.insertType k v) = insert k (keyset r) := by
  simp only [keyset, Registry.insertType, btreeInsert_keys_toFinset]

theorem mem_findIdx_of_mem {l : List Nat} {t : Nat} (hm : t ∈ l) :
    ∃ k, l.findIdx? (fun y => y = t) = some k := by
  cases hfi : l.findIdx? (fun y => y = t) with
  | none => exact absurd hm (findIdx_none_iff_not_mem.mp hfi)
  | some k => exact ⟨k, rfl⟩

theorem regExt_registerType (env : Env) (fuel : Nat) : Grows (registerType env fuel) := by
  induction fuel with
  | zero =>
    intro r t r' s h
    simp [registerType] at h
  | succ fuel ih =>
    intro r t r' s h
    by_cases hm : t ∈ tvec r
    · obtain ⟨k, hk⟩ := mem_findIdx_of_mem hm
      simp only [registerType, internTypeId_found hk, Bool.false_eq_true, if_false,
        Option.some.injEq, Prod.mk.injEq] at h
      obtain ⟨hr, hs⟩ := h
      subst hr
      exact regExt_rfl r
    · cases h2 : TypeId.intoCompact (registerType env fuel) (env t).1
          { r with type_table := ⟨tvec r ++ [t]⟩ } with
      | none => simp [registerType, internTypeId_new hm, h2] at h
      | some p =>
        obtain ⟨r2, cid⟩ := p
        cases h3 : TypeDef.intoCompact (registerType env fuel) (env t).2 r2 with
        | none => simp [registerType, internTypeId_new hm, h2, h3] at h
        | some q =>
          obtain ⟨r3, cdef⟩ := q
          simp only [registerType, internTypeId_new hm, h2, h3, if_true,
            Option.some.injEq, Prod.mk.injEq] at h
          obtain ⟨hr, hs⟩ := h
          subst hr
          have hg2 : RegExt { r with type_table := ⟨tvec r ++ [t]⟩ } r2 :=
            regExt_typeIdIntoCompact ih h2
          have hg3 : RegExt r2 r3 := regExt_typeDefIntoCompact ih h3
          have hg := regExt_trans hg2 hg3
          have hm' : tlen r + 1 ≤ tlen r3 := by
            have hl := pfx_len hg.1
            simpa [tvec, tlen] using hl
          have hk3 : keyset r3 = keyset r ∪ Finset.Ioc (tlen r + 1) (tlen r3) := by
            have hx := hg.2.2.1
            simpa [tvec, tlen] using hx
          refine ⟨pfx_trans ⟨[t], rfl⟩ hg.1, hg.2.1, ?_, ?_⟩
          · calc keyset (r3.insertType (tlen r + 1) ⟨cid, cdef⟩)
                = insert (tlen r + 1) (keyset r3) := keyset_insertType r3 _ _
              _ = keyset r ∪ insert (tlen r + 1) (Finset.Ioc (tlen r + 1) (tlen r3)) := by
                  rw [hk3, Finset.union_insert]
              _ = keyset r ∪ Finset.Ioc (tlen r) (tlen r3) := by
                  rw [Finset.Ioc_insert_left hm', Nat.Icc_succ_left]
          · intro hs0
            have hs3 := hg.2.2.2 hs0
            exact sortedKeys_insertType hs3

theorem countU_mono {S : Finset MetaType} {r r' : Registry}
    (h : tvec r <+: tvec r') : countU S r' ≤ countU S r := by
  apply Finset.card_le_card
  intro u hu
  rw [Finset.mem_filter] at hu ⊢
  exact ⟨hu.1, fun hc => hu.2 (pfx_subset h u hc)⟩

theorem countU_intern_lt {S : Finset MetaType} {r : Registry} {t : MetaType}
    (htS : t ∈ S) (hm : t ∉ tvec r) :
    countU S { r with type_table := ⟨tvec r ++ [t]⟩ } < countU S r := by
  have hset : (S.filter fun u => u ∉ tvec ({ r with type_table := ⟨tvec r ++ [t]⟩ } : Registry))
      = (S.filter fun u => u ∉ tvec r).erase t := by
    ext u
    simp only [Finset.mem_filter, Finset.mem_erase, tvec, List.mem_append, List.mem_singleton]
    constructor
    · intro ⟨huS, hun⟩
      exact ⟨fun he => hun (Or.inr he), huS, fun hc => hun (Or.inl hc)⟩
    · intro ⟨hne, huS, hun⟩
      exact ⟨huS, fun hc => hc.elim hun hne⟩
  have hmem : t ∈ S.filter fun u => u ∉ tvec r := Finset.mem_filter.mpr ⟨htS, hm⟩
  have hpos : 0 < (S.filter fun u => u ∉ tvec r).card :=
    Finset.card_pos.mpr ⟨t, hmem⟩
  calc countU S { r with type_table := ⟨tvec r ++ [t]⟩ }
      = ((S.filter fun u => u ∉ tvec r).erase t).card := by rw [countU, hset]
    _ = (S.filter fun u => u ∉ tvec r).card - 1 := Finset.card_erase_of_mem hmem
    _ < countU S r := by
        rw [countU]
        omega

theorem tot_regTypes {S : Finset MetaType} {n : Nat}
    {f : Registry → MetaType → Option (Registry × Nat)} (hfg : Grows f)
    (hft : ∀ u ∈ S, ∀ r, countU S r < n → ∃ p, f r u = some p)
    {ts : List MetaType} (hts : ∀ u ∈ ts, u ∈ S) :
    ∀ r, countU S r < n → ∃ p, regTypes f r ts = some p := by
  induction ts with
  | nil => exact fun r _ => ⟨(r, []), rfl⟩
  | cons t rest ih =>
    intro r hr
    obtain ⟨⟨r1, s⟩, h1⟩ := hft t (hts t (List.mem_cons_self t rest)) r hr
    have hr1 : countU S r1 < n := lt_of_le_of_lt (countU_mono (hfg _ _ _ _ h1).1) hr
    obtain ⟨⟨r2, ss⟩, h2⟩ := ih (fun u hu => hts u (List.mem_cons_of_mem t hu)) r1 hr1
    exact ⟨(r2, s :: ss), by simp [regTypes, h1, h2]⟩

theorem tot_namedField {S : Finset MetaType} {n : Nat}
    {f : Registry → MetaType → Option (Registry × Nat)}
    (hft : ∀ u ∈ S, ∀ r, countU S r < n → ∃ p, f r u = some p)
    {fl : NamedField String MetaType} (hfl : fl.ty ∈ S) :
    ∀ r, countU S r < n → ∃ p, fl.intoCompact f r = some p := by
  intro r hr
  have hr' : countU S (r.registerString fl.name).1 < n :=
    lt_of_le_of_lt (countU_mono (regExt_registerString r fl.name).1) hr
  obtain ⟨⟨r1, s⟩, h1⟩ := hft fl.ty hfl _ hr'
  exact ⟨(r1, ⟨(r.registerString fl.name).2, s⟩), by simp [NamedField.intoCompact, h1]⟩

theorem tot_compactNamedFields {S : Finset MetaType} {n : Nat}
    {f : Registry → MetaType → Option (Registry × Nat)} (hfg : Grows f)
    (hft : ∀ u ∈ S, ∀ r, countU S r < n → ∃ p, f r u = some p)
    {fls : List (NamedField String MetaType)} (hfls : ∀ fl ∈ fls, fl.ty ∈ S) :
    ∀ r, countU S r < n → ∃ p, compactNamedFields f r fls = some p := by
  induction fls with
  | nil => exact fun r _ => ⟨(r, []), rfl⟩
  | cons fl rest ih =>
    intro r hr
    obtain ⟨⟨r1, fl1⟩, h1⟩ :=
      tot_namedField hft (hfls fl (List.mem_cons_self fl rest)) r hr
    have hr1 : countU S r1 < n :=
      lt_of_le_of_lt (countU_mono (regExt_namedField hfg h1).1) hr
    obtain ⟨⟨r2, fls2⟩, h2⟩ := ih (fun u hu => hfls u (List.mem_cons_of_mem fl hu)) r1 hr1
    exact ⟨(r2, fl1 :: fls2), by simp [compactNamedFields, h1, h2]⟩

theorem tot_unnamedField {S : Finset MetaType} {n : Nat}
    {f : Registry → MetaType → Option (Registry × Nat)}
    (hft : ∀ u ∈ S, ∀ r, countU S r < n → ∃ p, f r u = some p)
    {fl : UnnamedField MetaType} (hfl : fl.ty ∈ S) :
    ∀ r, countU S r < n → ∃ p, fl.intoCompact f r = some p := by
  intro r hr
  obtain ⟨⟨r1, s⟩, h1⟩ := hft fl.ty hfl r hr
  exact ⟨(r1, ⟨s⟩), by simp [UnnamedField.intoCompact, h1]⟩

theorem tot_compactUnnamedFields {S : Finset MetaType} {n : Nat}
    {f : Registry → MetaType → Option (Registry × Nat)} (hfg : Grows f)
    (hft : ∀ u ∈ S, ∀ r, countU S r < n → ∃ p, f r u = some p)
    {fls : List (UnnamedField MetaType)} (hfls : ∀ fl ∈ fls, fl.ty ∈ S) :
    ∀ r, countU S r < n → ∃ p, compactUnnamedFields f r fls = some p := by
  induction fls with
  | nil => exact fun r _ => ⟨(r, []), rfl⟩
  | cons fl rest ih =>
    intro r hr
    obtain ⟨⟨r1, fl1⟩, h1⟩ :=
      tot_unnamedField hft (hfls fl (List.mem_cons_self fl rest)) r hr
    have hr1 : countU S r1 < n :=
      lt_of_le_of_lt (countU_mono (regExt_unnamedField hfg h1).1) hr
    obtain ⟨⟨r2, fls2⟩, h2⟩ := ih (fun u hu => hfls u (List.mem_cons_of_mem fl hu)) r1 hr1
    exact ⟨(r2, fl1 :: fls2), by simp [compactUnnamedFields, h1, h2]⟩

theorem tot_enumVariant {S : Finset MetaType} {n : Nat}
    {f : Registry → MetaType → Option (Registry × Nat)} (hfg : Grows f)
    (hft : ∀ u ∈ S, ∀ r, countU S r < n → ∃ p, f r u = some p)
    {v : EnumVariant String MetaType} (hv : ∀ u ∈ variantTokens v, u ∈ S) :
    ∀ r, countU S r < n → ∃ p, v.intoCompact f r = some p := by
  intro r hr
  cases v with
  | unit name => exact ⟨_, rfl⟩
  | vstruct name fields =>
    have hr' : countU S (r.registerString name).1 < n :=
      lt_of_le_of_lt (countU_mono (regExt_registerString r name).1) hr
    have hfls : ∀ fl ∈ fields, fl.ty ∈ S := by
      intro fl hfl
      exact hv fl.ty (by simp [variantTokens]; exact ⟨fl, hfl, rfl⟩)
    obtain ⟨⟨r1, fls1⟩, h1⟩ := tot_compactNamedFields hfg hft hfls _ hr'
    exact ⟨(r1, .vstruct (r.registerString name).2 fls1),
      by simp [EnumVariant.intoCompact, h1]⟩
  | vtupleStruct name fields =>
    have hr' : countU S (r.registerString name).1 < n :=
      lt_of_le_of_lt (countU_mono (regExt_registerString r name).1) hr
    have hfls : ∀ fl ∈ fields, fl.ty ∈ S := by
      intro fl hfl
      exact hv fl.ty (by simp [variantTokens]; exact ⟨fl, hfl, rfl⟩)
    obtain ⟨⟨r1, fls1⟩, h1⟩ := tot_compactUnnamedFields hfg hft hfls _ hr'
    exact ⟨(r1, .vtupleStruct (r.registerString name).2 fls1),
      by simp [EnumVariant.intoCompact, h1]⟩

theorem tot_compactEnumVariants {S : Finset MetaType} {n : Nat}
    {f : Registry → MetaType → Option (Registry × Nat)} (hfg : Grows f)
    (hft : ∀ u ∈ S, ∀ r, countU S r < n → ∃ p, f r u = some p)
    {vs : List (EnumVariant String MetaType)}
    (hvs : ∀ v ∈ vs, ∀ u ∈ variantTokens v, u ∈ S) :
    ∀ r, countU S r < n → ∃ p, compactEnumVariants f r vs = some p := by
  induction vs with
  | nil => exact fun r _ => ⟨(r, []), rfl⟩
  | cons v rest ih =>
    intro r hr
    obtain ⟨⟨r1, v1⟩, h1⟩ :=
      tot_enumVariant hfg hft (hvs v (List.mem_cons_self v rest)) r hr
    have hr1 : countU S r1 < n :=
      lt_of_le_of_lt (countU_mono (regExt_enumVariant hfg h1).1) hr
    obtain ⟨⟨r2, vs2⟩, h2⟩ := ih (fun w hw => hvs w (List.mem_cons_of_mem v hw)) r1 hr1
    exact ⟨(r2, v1 :: vs2), by simp [compactEnumVariants, h1, h2]⟩

theorem tot_typeIdIntoCompact {S : Finset MetaType} {n : Nat}
    {f : Registry → MetaType → Option (Registry × Nat)} (hfg : Grows f)
    (hft : ∀ u ∈ S, ∀ r, countU S r < n → ∃ p, f r u = some p)
    {tid : MetaTypeId} (htid : ∀ u ∈ idTokens tid, u ∈ S) :
    ∀ r, countU S r < n → ∃ p, tid.intoCompact f r = some p := by
  intro r hr
  cases tid with
  | custom name ns params =>
    have hr' : countU S (ns.intoCompact (r.registerString name).1).1 < n := by
      refine lt_of_le_of_lt (countU_mono ?_) hr
      exact pfx_trans (regExt_registerString r name).1 (regExt_regStrings _ ns.segments).1
    obtain ⟨⟨r3, ss⟩, h1⟩ :=
      tot_regTypes hfg hft (by simpa [idTokens] using htid) _ hr'
    exact ⟨(r3, .custom (r.registerString name).2 (ns.intoCompact (r.registerString name).1).2 ss),
      by simp [TypeId.intoCompact, h1]⟩
  | slice t =>
    obtain ⟨⟨r1, s⟩, h1⟩ := hft t (htid t (by simp [idTokens])) r hr
    exact ⟨(r1, .slice s), by simp [TypeId.intoCompact, h1]⟩
  | array len t =>
    obtain ⟨⟨r1, s⟩, h1⟩ := hft t (htid t (by simp [idTokens])) r hr
    exact ⟨(r1, .array len s), by simp [TypeId.intoCompact, h1]⟩
  | tuple params =>
    obtain ⟨⟨r1, ss⟩, h1⟩ := tot_regTypes hfg hft (by simpa [idTokens] using htid) r hr
    exact ⟨(r1, .tuple ss), by simp [TypeId.intoCompact, h1]⟩
  | primitive p => exact ⟨(r, .primitive p), rfl⟩

theorem tot_typeDefIntoCompact {S : Finset MetaType} {n : Nat}
    {f : Registry → MetaType → Option (Registry × Nat)} (hfg : Grows f)
    (hft : ∀ u ∈ S, ∀ r, countU S r < n → ∃ p, f r u = some p)
    {td : MetaTypeDef} (htd : ∀ u ∈ defTokens td, u ∈ S) :
    ∀ r, countU S r < n → ∃ p, td.intoCompact f r = some p := by
  intro r hr
  cases td with
  | builtin => exact ⟨(r, .builtin), rfl⟩
  | struct fields =>
    have hfls : ∀ fl ∈ fields, fl.ty ∈ S := by
      intro fl hfl
      exact htd fl.ty (by simp [defTokens]; exact ⟨fl, hfl, rfl⟩)
    obtain ⟨⟨r1, fls1⟩, h1⟩ := tot_compactNamedFields hfg hft hfls r hr
    exact ⟨(r1, .struct fls1), by simp [TypeDef.intoCompact, h1]⟩
  | tupleStruct fields =>
    have hfls : ∀ fl ∈ fields, fl.ty ∈ S := by
      intro fl hfl
      exact htd fl.ty (by simp [defTokens]; exact ⟨fl, hfl, rfl⟩)
    obtain ⟨⟨r1, fls1⟩, h1⟩ := tot_compactUnnamedFields hfg hft hfls r hr
    exact ⟨(r1, .tupleStruct fls1), by simp [TypeDef.intoCompact, h1]⟩
  | clikeEnum variants => exact ⟨_, rfl⟩
  | enum variants =>
    have hvs : ∀ v ∈ variants, ∀ u ∈ variantTokens v, u ∈ S := by
      intro v hv u hu
      refine htd u ?_
      simp only [defTokens, List.mem_flatten]
      exact ⟨variantTokens v, List.mem_map_of_mem variantTokens hv, hu⟩
    obtain ⟨⟨r1, vs1⟩, h1⟩ := tot_compactEnumVariants hfg hft hvs r hr
    exact ⟨(r1, .enum vs1), by simp [TypeDef.intoCompact, h1]⟩
  | union fields =>
    have hfls : ∀ fl ∈ fields, fl.ty ∈ S := by
      intro fl hfl
      exact htd fl.ty (by simp [defTokens]; exact ⟨fl, hfl, rfl⟩)
    obtain ⟨⟨r1, fls1⟩, h1⟩ := tot_compactNamedFields hfg hft hfls r hr
    exact ⟨(r1, .union fls1), by simp [TypeDef.intoCompact, h1]⟩

theorem registerType_total {S : Finset MetaType} {env : Env} (hcl : ClosedEnv S env) :
    ∀ fuel t r, t ∈ S → countU S r < fuel → ∃ p, registerType env fuel r t = some p := by
  intro fuel
  induction fuel with
  | zero => exact fun t r _ hr => absurd hr (Nat.not_lt_zero _)
  | succ fuel ih =>
    intro t r htS hr
    by_cases hm : t ∈ tvec r
    · obtain ⟨k, hk⟩ := mem_findIdx_of_mem hm
      exact ⟨(r, k + 1), by simp [registerType, internTypeId_found hk]⟩
    · have hfg : Grows (registerType env fuel) := regExt_registerType env fuel
      have hft : ∀ u ∈ S, ∀ r', countU S r' < fuel →
          ∃ p, registerType env fuel r' u = some p := fun u hu r' hr' => ih u r' hu hr'
      have hr1 : countU S ({ r with type_table := ⟨tvec r ++ [t]⟩ } : Registry) < fuel := by
        have := countU_intern_lt htS hm (r := r)
        omega
      obtain ⟨⟨r2, cid⟩, h2⟩ :=
        tot_typeIdIntoCompact hfg hft ((hcl t htS).1) _ hr1
      have hr2 : countU S r2 < fuel :=
        lt_of_le_of_lt (countU_mono (regExt_typeIdIntoCompact hfg h2).1) hr1
      obtain ⟨⟨r3, cdef⟩, h3⟩ :=
        tot_typeDefIntoCompact hfg hft ((hcl t htS).2) r2 hr2
      exact ⟨(r3.insertType (tlen r + 1) ⟨cid, cdef⟩, tlen r + 1),
        by simp [registerType, internTypeId_new hm, h2, h3]⟩

theorem findIdx_self_append {l : List Nat} {t : Nat}
    (h : l.findIdx? (fun y => y = t) = none) :
    (l ++ [t]).findIdx? (fun y => y = t) = some l.length := by
  rw [List.findIdx?_append, h]
  simp

theorem registerType_symbol {env : Env} {fuel : Nat} {r : Registry} {t : MetaType}
    {r' : Registry} {s : Nat} (h : registerType env fuel r t = some (r', s)) :
    ∃ k, (tvec r').findIdx? (fun y => y = t) = some k ∧ s = k + 1 := by
  cases fuel with
  | zero => simp [registerType] at h
  | succ fuel =>
    by_cases hm : t ∈ tvec r
    · obtain ⟨k, hk⟩ := mem_findIdx_of_mem hm
      simp only [registerType, internTypeId_found hk, Bool.false_eq_true, if_false,
        Option.some.injEq, Prod.mk.injEq] at h
      obtain ⟨hr, hs⟩ := h
      subst hr
      exact ⟨k, hk, hs.symm⟩
    · cases h2 : TypeId.intoCompact (registerType env fuel) (env t).1
          { r with type_table := ⟨tvec r ++ [t]⟩ } with
      | none => simp [registerType, internTypeId_new hm, h2] at h
      | some p =>
        obtain ⟨r2, cid⟩ := p
        cases h3 : TypeDef.intoCompact (registerType env fuel) (env t).2 r2 with
        | none => simp [registerType, internTypeId_new hm, h2, h3] at h
        | some q =>
          obtain ⟨r3, cdef⟩ := q
          simp only [registerType, internTypeId_new hm, h2, h3, if_true,
            Option.some.injEq, Prod.mk.injEq] at h
          obtain ⟨hr, hs⟩ := h
          subst hr
          have hg2 : RegExt { r with type_table := ⟨tvec r ++ [t]⟩ } r2 :=
            regExt_typeIdIntoCompact (regExt_registerType env fuel) h2
          have hg3 : RegExt r2 r3 := regExt_typeDefIntoCompact (regExt_registerType env fuel) h3
          have hg := regExt_trans hg2 hg3
          have hn : (tvec r).findIdx? (fun y => y = t) = none :=
            findIdx_none_iff_not_mem.mpr hm
          have hfi : (tvec r ++ [t]).findIdx? (fun y => y = t) = some (tvec r).length :=
            findIdx_self_append hn
          refine ⟨(tvec r).length, ?_, hs.symm⟩
          exact pfx_findIdx hg.1 hfi

theorem registerType_fixpoint {env : Env} {fuel : Nat} {r : Registry} {t : MetaType}
    {r' : Registry} {s : Nat} (h : registerType env fuel r t = some (r', s)) :
    ∀ fuel', registerType env (fuel' + 1) r' t = some (r', s) := by
  obtain ⟨k, hk, hs⟩ := registerType_symbol h
  intro fuel'
  subst hs
  simp [registerType, internTypeId_found hk]

theorem internOrGet_repeat {α : Type} [DecidableEq α] (i : Interner α) (x : α) :
    (i.internOrGet x).2.internOrGet x = ((false, (i.internOrGet x).1.2), (i.internOrGet x).2) := by
  cases hfi : i.vec.findIdx? (fun y => y = x) with
  | some k => simp [Interner.internOrGet, hfi]
  | none =>
    have hfi2 : (i.vec ++ [x]).findIdx? (fun y => y = x) = some i.vec.length := by
      rw [List.findIdx?_append, hfi]
      simp
    simp [Interner.internOrGet, hfi, hfi2]

theorem internOrGet_size {α : Type} [DecidableEq α] (i : Interner α) (x : α) :
    (i.internOrGet x).2.vec.length ≤ i.vec.length + 1 := by
  cases hfi : i.vec.findIdx? (fun y => y = x) with
  | some k => simp [Interner.internOrGet, hfi]
  | none => simp [Interner.internOrGet, hfi]

theorem sorted_keys_range {l : List Nat} {n : Nat} (hs : l.Chain' (· < ·))
    (he : l.toFinset = Finset.Ioc 0 n) : l = List.range' 1 n := by
  have hp : l.Pairwise (· < ·) := List.chain'_iff_pairwise.mp hs
  have hnd : l.Nodup := hp.nodup
  have hnd' : (List.range' 1 n).Nodup := List.nodup_range' 1 n
  have hfs : (List.range' 1 n).toFinset = Finset.Ioc 0 n := by
    ext m
    simp only [List.mem_toFinset, List.mem_range'_1, Finset.mem_Ioc]
    omega
  have hperm : l.Perm (List.range' 1 n) :=
    List.perm_of_nodup_nodup_toFinset_eq hnd hnd' (by rw [he, hfs])
  exact List.eq_of_perm_of_sorted hperm hp (List.pairwise_lt_range' 1 n)

theorem countU_new_le (S : Finset MetaType) : countU S Registry.new ≤ S.card :=
  Finset.card_filter_le S _

theorem sortedKeys_nodup {r : Registry} (h : SortedKeys r) :
    (r.types.map Prod.fst).Nodup :=
  (List.chain'_iff_pairwise.mp h).nodup

theorem registerType_sorted {env : Env} {fuel : Nat} {r : Registry} {t : MetaType}
    {r' : Registry} {s : Nat} (hs : SortedKeys r)
    (h : registerType env fuel r t = some (r', s)) : SortedKeys r' :=
  (regExt_registerType env fuel _ _ _ _ h).2.2.2 hs

theorem registerType_inserted_mem {env : Env} {fuel : Nat} {r : Registry} {t : MetaType}
    {r' : Registry} {s : Nat} (hm : t ∉ tvec r)
    (h : registerType env fuel r t = some (r', s)) : s ∈ r'.types.map Prod.fst := by
  cases fuel with
  | zero => simp [registerType] at h
  | succ fuel =>
    cases h2 : TypeId.intoCompact (registerType env fuel) (env t).1
        { r with type_table := ⟨tvec r ++ [t]⟩ } with
    | none => simp [registerType, internTypeId_new hm, h2] at h
    | some p =>
      obtain ⟨r2, cid⟩ := p
      cases h3 : TypeDef.intoCompact (registerType env fuel) (env t).2 r2 with
      | none => simp [registerType, internTypeId_new hm, h2, h3] at h
      | some q =>
        obtain ⟨r3, cdef⟩ := q
        simp only [registerType, internTypeId_new hm, h2, h3, if_true,
          Option.some.injEq, Prod.mk.injEq] at h
        obtain ⟨hr, hs⟩ := h
        subst hr
        subst hs
        have hmem : (tlen r + 1) ∈ keyset (r3.insertType (tlen r + 1) ⟨cid, cdef⟩) := by
          rw [keyset_insertType]
          exact Finset.mem_insert_self _ _
        simpa [keyset, List.mem_toFinset] using hmem

/-- C1: On every descriptor graph that is closed over a finite token set `S`
— arbitrarily self-referential graphs included — `register_type` terminates
(fuel `|S| + 1` always suffices for the modelled recursion); the identity
keeps a single consistent symbol: re-registering it afterwards, with any
fuel, returns the same symbol and leaves the registry exactly unchanged, so
no body is recompacted however often the identity is reached; and the entry
keys of the resulting registry are exactly `1..n` for the `n` interned
identities, i.e. the compaction produced exactly one entry per distinct
identity. -/
theorem registerType_terminates_once (S : Finset MetaType) (env : Env)
    (hcl : ClosedEnv S env) (t : MetaType) (ht : t ∈ S) :
    ∃ r' s, registerType env (S.card + 1) Registry.new t = some (r', s) ∧
      (∀ fuel, registerType env (fuel + 1) r' t = some (r', s)) ∧
      r'.types.map Prod.fst = List.range' 1 (tlen r') := by
  have hcount : countU S Registry.new < S.card + 1 := by
    have := countU_new_le S
    omega
  obtain ⟨⟨r', s⟩, h⟩ := registerType_total hcl (S.card + 1) t Registry.new ht hcount
  refine ⟨r', s, h, registerType_fixpoint h, ?_⟩
  have hext := regExt_registerType env (S.card + 1) _ _ _ _ h
  have hsorted : SortedKeys r' := hext.2.2.2 (by simp [SortedKeys, Registry.new])
  have hkeys : (r'.types.map Prod.fst).toFinset = Finset.Ioc 0 (tlen r') := by
    have hx := hext.2.2.1
    simpa [keyset, Registry.new, tlen, tvec, Interner.new] using hx
  exact sorted_keys_range hsorted hkeys

/-- Witness for C1 at the self-referential graph `envSelf` with `S = {0}`. -/
theorem registerType_terminates_once_witness :
    ∃ r' s, registerType envSelf (({0} : Finset MetaType).card + 1) Registry.new 0 =
        some (r', s) ∧
      (∀ fuel, registerType envSelf (fuel + 1) r' 0 = some (r', s)) ∧
      r'.types.map Prod.fst = List.range' 1 (tlen r') :=
  registerType_terminates_once {0} envSelf (by unfold ClosedEnv; decide) 0 (by decide)

/-- C2 (counterexample): at the moment the compaction of identity 0 begins —
the state right after `intern_type_id`, which is the registry the body
compaction starts from — the entries store holds no entry for the identity's
symbol 1; the entry exists only in the final registry, i.e. once compaction
has completed.  So an entry is not visible for lookup in the entries store
from the moment compaction begins. -/
theorem entry_not_visible_at_compaction_begin :
    (Registry.new.internTypeId 0).2.types.lookup 1 = none ∧
    registerType envSelf 2 Registry.new 0 = some (rSelf, 1) ∧
    (rSelf.types.lookup 1).isSome = true := by
  refine ⟨rfl, by decide, by decide⟩

/-- C2 (amended): for any identity registered via `register_type`, at most
one entry for it ever exists in the entries store (the entry keys stay
pairwise distinct); what is visible from the moment that identity's
compaction begins is the identity in the type-identity interner — the
entries store itself is untouched by `intern_type_id` — and when the call
compacts the identity (the interner reported it as newly inserted) its entry
is visible in the entries store once the call returns. -/
theorem registry_entry_visibility (env : Env) (fuel : Nat) (r : Registry)
    (t : MetaType) (r' : Registry) (s : Nat) (hs : SortedKeys r)
    (h : registerType env fuel r t = some (r', s)) :
    (r'.types.map Prod.fst).Nodup ∧
    (r.internTypeId t).2.types = r.types ∧
    t ∈ tvec (r.internTypeId t).2 ∧
    ((r.internTypeId t).1.1 = true → s ∈ r'.types.map Prod.fst) := by
  refine ⟨sortedKeys_nodup (registerType_sorted hs h), rfl, ?_, ?_⟩
  · by_cases hm : t ∈ tvec r
    · obtain ⟨k, hk⟩ := mem_findIdx_of_mem hm
      rw [internTypeId_found hk]
      exact hm
    · rw [internTypeId_new hm]
      simp [tvec]
  · intro hins
    by_cases hm : t ∈ tvec r
    · obtain ⟨k, hk⟩ := mem_findIdx_of_mem hm
      rw [internTypeId_found hk] at hins
      simp at hins
    · exact registerType_inserted_mem hm h

/-- Witness for C2's amended theorem at the self-referential graph. -/
theorem registry_entry_visibility_witness :
    (rSelf.types.map Prod.fst).Nodup ∧
    (Registry.new.internTypeId 0).2.types = Registry.new.types ∧
    0 ∈ tvec (Registry.new.internTypeId 0).2 ∧
    ((Registry.new.internTypeId 0).1.1 = true → 1 ∈ rSelf.types.map Prod.fst) :=
  registry_entry_visibility envSelf 2 Registry.new 0 rSelf 1
    (by simp [SortedKeys, Registry.new]) (by decide)

/-- C3: Registration is idempotent.  A successful `register_type` is a fixed
point: any further call on the same identity returns the identical symbol
with the registry unchanged, hence `N` repetitions collapse to the first
call; registering an identity into the empty registry leaves exactly one
entry keyed by the returned symbol in `definitions()`; and `register_string`
on a repeat returns the same symbol with the string table growing by zero,
while any single call grows it by at most one. -/
theorem register_idempotent :
    (∀ env fuel r t r' s, registerType env fuel r t = some (r', s) →
      registerType env fuel r' t = some (r', s)) ∧
    (∀ env fuel r t r' s, registerType env fuel r t = some (r', s) →
      ∀ n, (fun o => Option.bind o fun p => registerType env fuel p.1 t)^[n]
        (some (r', s)) = some (r', s)) ∧
    (∀ env fuel t r' s, registerType env fuel Registry.new t = some (r', s) →
      (r'.types.map Prod.fst).count s = 1) ∧
    (∀ r str, (r.registerString str).1.registerString str =
        ((r.registerString str).1, (r.registerString str).2) ∧
      (svec ((r.registerString str).1.registerString str).1).length =
        (svec (r.registerString str).1).length ∧
      (svec (r.registerString str).1).length ≤ (svec r).length + 1) := by
  have hfix : ∀ (env : Env) (fuel : Nat) (r : Registry) (t : MetaType) (r' : Registry) (s : Nat),
      registerType env fuel r t = some (r', s) →
      registerType env fuel r' t = some (r', s) := by
    intro env fuel r t r' s h
    cases fuel with
    | zero => simp [registerType] at h
    | succ fuel => exact registerType_fixpoint h fuel
  refine ⟨hfix, ?_, ?_, ?_⟩
  · intro env fuel r t r' s h n
    apply Function.iterate_fixed
    exact hfix env fuel r t r' s h
  · intro env fuel t r' s h
    have hnodup : (r'.types.map Prod.fst).Nodup :=
      sortedKeys_nodup (registerType_sorted (by simp [SortedKeys, Registry.new]) h)
    have hmem : s ∈ r'.types.map Prod.fst :=
      registerType_inserted_mem (by simp [tvec, Registry.new, Interner.new]) h
    exact List.count_eq_one_of_mem hnodup hmem
  · intro r str
    have hrep := internOrGet_repeat r.string_table str
    refine ⟨?_, ?_, internOrGet_size r.string_table str⟩
    · simp only [Registry.registerString, hrep]
    · simp only [Registry.registerString, hrep]

/-- Witness for C3: the fixed point and the single-entry count at the
concrete self-referential graph, plus the string-interner idempotence at a
concrete string. -/
theorem register_idempotent_witness :
    registerType envSelf 2 rSelf 0 = some (rSelf, 1) ∧
    (rSelf.types.map Prod.fst).count 1 = 1 ∧
    (Registry.new.registerString "a").1.registerString "a" =
      ((Registry.new.registerString "a").1, (Registry.new.registerString "a").2) := by
  refine ⟨?_, ?_, ?_⟩
  · exact register_idempotent.1 envSelf 2 Registry.new 0 rSelf 1 (by decide)
  · exact register_idempotent.2.2.1 envSelf 2 0 rSelf 1 (by decide)
  · exact (register_idempotent.2.2.2 Registry.new "a").1

theorem visitMap_fields (ss : List String) (ts : List TypeIdDef) :
    RegistryVisitor.visitMap [RegField.strings ss, RegField.types ts] =
      Except.ok ⟨⟨ss⟩, Interner.new, ts.enum.map (fun it => (it.1 + 1, it.2))⟩ := rfl

theorem enum_renumber_values (l : List TypeIdDef) :
    (l.enum.map (fun it => (it.1 + 1, it.2))).map Prod.snd = l := by
  rw [List.map_map]
  have hc : (Prod.snd ∘ fun it : Nat × TypeIdDef => (it.1 + 1, it.2)) = Prod.snd := rfl
  rw [hc, List.enum_map_snd]

/-- C4: one full decode/encode round-trip is the identity on the serialized
form: re-encoding the decoded registry reproduces the same string list and
the same ordered list of compacted entries. -/
theorem encode_decode_encode_roundtrip (r : Registry) :
    (RegistryVisitor.visitMap (serialFields (serializeRegistry r))).map serializeRegistry =
      Except.ok (serializeRegistry r) := by
  rw [serialFields, visitMap_fields]
  simp only [Except.map, serializeRegistry]
  rw [enum_renumber_values]

/-- C5: serialization emits the string table verbatim and the entries
store's values — never its identity-symbol keys — in storage order
(`definitions()` order); decoding keys the entry at 0-based position `i`
under the fresh identity symbol `i + 1` and leaves the type-identity
interner empty rather than reconstructing it. -/
theorem serialize_values_decode_positions :
    (∀ r : Registry, serializeRegistry r = ⟨r.strings, r.definitions⟩) ∧
    (∀ (ss : List String) (ts : List TypeIdDef), ∃ r',
      RegistryVisitor.visitMap [RegField.strings ss, RegField.types ts] = Except.ok r' ∧
      r'.type_table = Interner.new ∧
      r'.string_table.vec = ss ∧
      (∀ i : Nat, r'.types[i]? = ts[i]?.map (fun td => (i + 1, td)))) := by
  refine ⟨fun r => rfl, fun ss ts => ⟨_, visitMap_fields ss ts, rfl, rfl, ?_⟩⟩
  intro i
  rw [List.getElem?_map, List.getElem?_enum]
  cases ts[i]? <;> rfl

/-- C9: if the serialized input has a `strings` field but no `types` field,
decoding fails with a missing-field error that names `"strings"`, not
`"types"`; the same field name is reported when `strings` itself is the
missing field. -/
theorem decode_missing_types_reports_strings :
    (∀ ss : List String, RegistryVisitor.visitMap [RegField.strings ss] =
      Except.error (DeError.missingField "strings")) ∧
    (∀ ts : List TypeIdDef, RegistryVisitor.visitMap [RegField.types ts] =
      Except.error (DeError.missingField "strings")) :=
  ⟨fun _ => rfl, fun _ => rfl⟩

theorem regStrings_length (r : Registry) (l : List String) :
    (regStrings r l).2.length = l.length := by
  induction l generalizing r with
  | nil => rfl
  | cons s rest ih => simp [regStrings, ih]

theorem regTypes_length {f : Registry → MetaType → Option (Registry × Nat)}
    {r r' : Registry} {ts : List MetaType} {ss : List Nat}
    (h : regTypes f r ts = some (r', ss)) : ss.length = ts.length := by
  induction ts generalizing r ss with
  | nil =>
    simp only [regTypes, Option.some.injEq, Prod.mk.injEq] at h
    simp [← h.2]
  | cons t rest ih =>
    cases h1 : f r t with
    | none => simp [regTypes, h1] at h
    | some p =>
      obtain ⟨r1, s⟩ := p
      cases h2 : regTypes f r1 rest with
      | none => simp [regTypes, h1, h2] at h
      | some q =>
        obtain ⟨r2, ss2⟩ := q
        simp only [regTypes, h1, h2, Option.some.injEq, Prod.mk.injEq] at h
        obtain ⟨hr, hs⟩ := h
        subst hr
        simp [← hs, ih h2]

theorem compactNamedFields_length {f : Registry → MetaType → Option (Registry × Nat)}
    {r r' : Registry} {fls : List (NamedField String MetaType)}
    {out : List (NamedField Nat Nat)}
    (h : compactNamedFields f r fls = some (r', out)) : out.length = fls.length := by
  induction fls generalizing r out with
  | nil =>
    simp only [compactNamedFields, Option.some.injEq, Prod.mk.injEq] at h
    simp [← h.2]
  | cons fl rest ih =>
    cases h1 : fl.intoCompact f r with
    | none => simp [compactNamedFields, h1] at h
    | some p =>
      obtain ⟨r1, fl1⟩ := p
      cases h2 : compactNamedFields f r1 rest with
      | none => simp [compactNamedFields, h1, h2] at h
      | some q =>
        obtain ⟨r2, fls2⟩ := q
        simp only [compactNamedFields, h1, h2, Option.some.injEq, Prod.mk.injEq] at h
        obtain ⟨hr, hs⟩ := h
        subst hr
        simp [← hs, ih h2]

theorem compactUnnamedFields_length {f : Registry → MetaType → Option (Registry × Nat)}
    {r r' : Registry} {fls : List (UnnamedField MetaType)}
    {out : List (UnnamedField Nat)}
    (h : compactUnnamedFields f r fls = some (r', out)) : out.length = fls.length := by
  induction fls generalizing r out with
  | nil =>
    simp only [compactUnnamedFields, Option.some.injEq, Prod.mk.injEq] at h
    simp [← h.2]
  | cons fl rest ih =>
    cases h1 : fl.intoCompact f r with
    | none => simp [compactUnnamedFields, h1] at h
    | some p =>
      obtain ⟨r1, fl1⟩ := p
      cases h2 : compactUnnamedFields f r1 rest with
      | none => simp [compactUnnamedFields, h1, h2] at h
      | some q =>
        obtain ⟨r2, fls2⟩ := q
        simp only [compactUnnamedFields, h1, h2, Option.some.injEq, Prod.mk.injEq] at h
        obtain ⟨hr, hs⟩ := h
        subst hr
        simp [← hs, ih h2]

theorem compactClikeVariants_shape (r : Registry) (vs : List (ClikeEnumVariant String)) :
    (compactClikeVariants r vs).2.map (fun v => v.discriminant) =
      vs.map (fun v => v.discriminant) := by
  induction vs generalizing r with
  | nil => rfl
  | cons v rest ih => simp [compactClikeVariants, ClikeEnumVariant.intoCompact, ih]

theorem enumVariant_shape {f : Registry → MetaType → Option (Registry × Nat)}
    {v : EnumVariant String MetaType} {r r' : Registry} {v' : EnumVariant Nat Nat}
    (h : v.intoCompact f r = some (r', v')) : variantShape v' = variantShape v := by
  cases v with
  | unit name =>
    simp only [EnumVariant.intoCompact, Option.some.injEq, Prod.mk.injEq] at h
    rw [← h.2]
    rfl
  | vstruct name fields =>
    simp only [EnumVariant.intoCompact, Option.map_eq_some'] at h
    obtain ⟨⟨r1, fls⟩, hp, he⟩ := h
    injection he with he1 he2
    rw [← he2]
    simp [variantShape, compactNamedFields_length hp]
  | vtupleStruct name fields =>
    simp only [EnumVariant.intoCompact, Option.map_eq_some'] at h
    obtain ⟨⟨r1, fls⟩, hp, he⟩ := h
    injection he with he1 he2
    rw [← he2]
    simp [variantShape, compactUnnamedFields_length hp]

theorem compactEnumVariants_shape {f : Registry → MetaType → Option (Registry × Nat)}
    {r r' : Registry} {vs : List (EnumVariant String MetaType)}
    {out : List (EnumVariant Nat Nat)}
    (h : compactEnumVariants f r vs = some (r', out)) :
    out.map variantShape = vs.map variantShape := by
  induction vs generalizing r out with
  | nil =>
    simp only [compactEnumVariants, Option.some.injEq, Prod.mk.injEq] at h
    simp [← h.2]
  | cons v rest ih =>
    cases h1 : v.intoCompact f r with
    | none => simp [compactEnumVariants, h1] at h
    | some p =>
      obtain ⟨r1, v1⟩ := p
      cases h2 : compactEnumVariants f r1 rest with
      | none => simp [compactEnumVariants, h1, h2] at h
      | some q =>
        obtain ⟨r2, vs2⟩ := q
        simp only [compactEnumVariants, h1, h2, Option.some.injEq, Prod.mk.injEq] at h
        obtain ⟨hr, hs⟩ := h
        subst hr
        simp [← hs, ih h2, enumVariant_shape h1]

/-- C6: compaction maps every descriptor variant of `TypeId`, `TypeDef` and
`EnumVariant` to the same variant with the same field arity — embedded
strings become string symbols (witnessed for named fields and C-like
variants, whose compact name is exactly the interned symbol of the original
name) and embedded `TypeId`s become type symbols — while the numeric and
enumerated leaves (array length, C-like discriminants, primitive kind tags)
pass through unchanged. -/
theorem intoCompact_preserves_shape :
    (∀ (f : Registry → MetaType → Option (Registry × Nat)) (tid : MetaTypeId) r r' cid,
      tid.intoCompact f r = some (r', cid) → idShape cid = idShape tid) ∧
    (∀ (f : Registry → MetaType → Option (Registry × Nat)) (td : MetaTypeDef) r r' cdef,
      td.intoCompact f r = some (r', cdef) → defShape cdef = defShape td) ∧
    (∀ (f : Registry → MetaType → Option (Registry × Nat))
        (v : EnumVariant String MetaType) r r' v',
      v.intoCompact f r = some (r', v') → variantShape v' = variantShape v) ∧
    (∀ (v : ClikeEnumVariant String) r,
      (v.intoCompact r).2 = ⟨(r.registerString v.name).2, v.discriminant⟩) ∧
    (∀ (fl : NamedField String MetaType) (f : Registry → MetaType → Option (Registry × Nat))
        r r' fl', fl.intoCompact f r = some (r', fl') →
      fl'.name = (r.registerString fl.name).2) := by
  refine ⟨?_, ?_, fun f v r r' v' h => enumVariant_shape h, fun v r => rfl, ?_⟩
  · intro f tid r r' cid h
    cases tid with
    | custom name ns params =>
      cases h1 : regTypes f (ns.intoCompact (r.registerString name).1).1 params with
      | none => simp [TypeId.intoCompact, h1] at h
      | some q =>
        obtain ⟨r3, ss⟩ := q
        simp only [TypeId.intoCompact, h1, Option.some.injEq, Prod.mk.injEq] at h
        rw [← h.2]
        simp [idShape, Namespace.intoCompact, regStrings_length, regTypes_length h1]
    | slice t =>
      simp only [TypeId.intoCompact, Option.map_eq_some'] at h
      obtain ⟨⟨r1, s⟩, hp, he⟩ := h
      injection he with he1 he2
      rw [← he2]
      rfl
    | array len t =>
      simp only [TypeId.intoCompact, Option.map_eq_some'] at h
      obtain ⟨⟨r1, s⟩, hp, he⟩ := h
      injection he with he1 he2
      rw [← he2]
      rfl
    | tuple params =>
      simp only [TypeId.intoCompact, Option.map_eq_some'] at h
      obtain ⟨⟨r1, ss⟩, hp, he⟩ := h
      injection he with he1 he2
      rw [← he2]
      simp [idShape, regTypes_length hp]
    | primitive p =>
      simp only [TypeId.intoCompact, Option.some.injEq, Prod.mk.injEq] at h
      rw [← h.2]
      rfl
  · intro f td r r' cdef h
    cases td with
    | builtin =>
      simp only [TypeDef.intoCompact, Option.some.injEq, Prod.mk.injEq] at h
      rw [← h.2]
      rfl
    | struct fields =>
      simp only [TypeDef.intoCompact, Option.map_eq_some'] at h
      obtain ⟨⟨r1, fls⟩, hp, he⟩ := h
      injection he with he1 he2
      rw [← he2]
      simp [defShape, compactNamedFields_length hp]
    | tupleStruct fields =>
      simp only [TypeDef.intoCompact, Option.map_eq_some'] at h
      obtain ⟨⟨r1, fls⟩, hp, he⟩ := h
      injection he with he1 he2
      rw [← he2]
      simp [defShape, compactUnnamedFields_length hp]
    | clikeEnum variants =>
      simp only [TypeDef.intoCompact, Option.some.injEq, Prod.mk.injEq] at h
      rw [← h.2]
      simp [defShape, compactClikeVariants_shape]
    | enum variants =>
      simp only [TypeDef.intoCompact, Option.map_eq_some'] at h
      obtain ⟨⟨r1, vs⟩, hp, he⟩ := h
      injection he with he1 he2
      rw [← he2]
      simp [defShape, compactEnumVariants_shape hp]
    | union fields =>
      simp only [TypeDef.intoCompact, Option.map_eq_some'] at h
      obtain ⟨⟨r1, fls⟩, hp, he⟩ := h
      injection he with he1 he2
      rw [← he2]
      simp [defShape, compactNamedFields_length hp]
  · intro fl f r r' fl' h
    simp only [NamedField.intoCompact, Option.map_eq_some'] at h
    obtain ⟨⟨r1, s⟩, hp, he⟩ := h
    injection he with he1 he2
    rw [← he2]

/-- Witness for C6: the shape-preservation parts applied to a concrete
custom `TypeId` and a concrete C-like enum `TypeDef` with the trivial
registration callback. -/
theorem intoCompact_preserves_shape_witness :
    idShape (TypeId.custom 1 ⟨[2]⟩ [5] : CompactTypeId) =
      idShape (TypeId.custom "N" ⟨["a"]⟩ [7] : MetaTypeId) ∧
    defShape (TypeDef.clikeEnum [⟨1, 42⟩] : CompactTypeDef) =
      defShape (TypeDef.clikeEnum [⟨"On", 42⟩] : MetaTypeDef) := by
  constructor
  · exact intoCompact_preserves_shape.1 (fun r t => some (r, 5))
      (TypeId.custom "N" ⟨["a"]⟩ [7]) Registry.new
      ⟨⟨["N", "a"]⟩, Interner.new, []⟩ (TypeId.custom 1 ⟨[2]⟩ [5]) (by decide)
  · exact intoCompact_preserves_shape.2.1 (fun r t => some (r, 5))
      (TypeDef.clikeEnum [⟨"On", 42⟩]) Registry.new
      ⟨⟨["On"]⟩, Interner.new, []⟩ (TypeDef.clikeEnum [⟨1, 42⟩]) (by decide)

theorem namespace_new_missing_iff (l : List String) :
    Namespace.new l = Except.error NamespaceError.missingSegments ↔ l = [] := by
  constructor
  · intro h
    cases l with
    | nil => rfl
    | cons x xs =>
      cases hfi : (x :: xs).findIdx? (fun seg => !isRustIdentifier seg) <;>
        simp [Namespace.new, hfi] at h
  · rintro rfl
    rfl

/-- C7: `Namespace::new` fails with `MissingSegments` exactly when given zero
segments; otherwise it validates the segments in order and fails with
`InvalidIdentifier` carrying exactly the first offending index; otherwise it
succeeds storing the segments in the given order; and the prelude (root)
constructor returns the zero-segment namespace directly, with no validation
and no possibility of failure. -/
theorem namespace_new_spec (segs : List String) :
    (Namespace.new segs = Except.error NamespaceError.missingSegments ↔ segs = []) ∧
    (∀ i, Namespace.new segs = Except.error (NamespaceError.invalidIdentifier i) ↔
      ∃ h : i < segs.length, isRustIdentifier (segs.get ⟨i, h⟩) = false ∧
        ∀ j (hj : j < i), isRustIdentifier (segs.get ⟨j, Nat.lt_trans hj h⟩) = true) ∧
    (∀ ns, Namespace.new segs = Except.ok ns → ns = ⟨segs⟩) ∧
    Namespace.prelude = (⟨[]⟩ : Namespace String) := by
  refine ⟨namespace_new_missing_iff segs, ?_, ?_, rfl⟩
  · intro i
    constructor
    · intro h
      by_cases he : segs.isEmpty
      · simp [Namespace.new, he] at h
      · cases hfi : segs.findIdx? (fun seg => !isRustIdentifier seg) with
        | none => simp [Namespace.new, he, hfi] at h
        | some k =>
          have hk : k = i := by simpa [Namespace.new, he, hfi] using h
          subst hk
          rw [List.findIdx?_eq_some_iff_getElem] at hfi
          obtain ⟨hlen, hp, hall⟩ := hfi
          refine ⟨hlen, ?_, ?_⟩
          · simpa [List.get_eq_getElem] using hp
          · intro j hj
            have hx := hall j hj
            simpa [List.get_eq_getElem] using hx
    · rintro ⟨hlen, hfalse, hall⟩
      have hne : segs.isEmpty = false := by
        cases segs with
        | nil => simp at hlen
        | cons x xs => simp
      have hfi : segs.findIdx? (fun seg => !isRustIdentifier seg) = some i := by
        rw [List.findIdx?_eq_some_iff_getElem]
        refine ⟨hlen, ?_, ?_⟩
        · simpa [List.get_eq_getElem] using hfalse
        · intro j hj
          have hx := hall j hj
          simpa [List.get_eq_getElem] using hx
      simp [Namespace.new, hne, hfi]
  · intro ns h
    by_cases he : segs.isEmpty
    · simp [Namespace.new, he] at h
    · cases hfi : segs.findIdx? (fun seg => !isRustIdentifier seg) with
      | none =>
        simp only [Namespace.new, he, Bool.false_eq_true, if_false, hfi,
          Except.ok.injEq] at h
        exact h.symm
      | some k => simp [Namespace.new, he, hfi] at h

/-- Witness for C7 at the spec's own examples. -/
theorem namespace_new_spec_witness :
    Namespace.new ([] : List String) = Except.error NamespaceError.missingSegments ∧
    Namespace.new ["1abc"] = Except.error (NamespaceError.invalidIdentifier 0) ∧
    (⟨["ok", "_2"]⟩ : Namespace String) = ⟨["ok", "_2"]⟩ := by
  refine ⟨?_, ?_, ?_⟩
  · exact (namespace_new_spec []).1.mpr rfl
  · exact ((namespace_new_spec ["1abc"]).2.1 0).mpr
      ⟨by decide, by decide, fun j hj => absurd hj (Nat.not_lt_zero j)⟩
  · exact (namespace_new_spec ["ok", "_2"]).2.2.1 ⟨["ok", "_2"]⟩ rfl

theorem splitAux_ne_nil : ∀ (l acc : List Char), splitDoubleColonAux l acc ≠ []
  | [], acc => by simp [splitDoubleColonAux]
  | [c], acc => by simp [splitDoubleColonAux]
  | c1 :: c2 :: rest, acc => by
    simp only [splitDoubleColonAux]
    split
    · simp
    · exact splitAux_ne_nil (c2 :: rest) (c1 :: acc)

/-- C10: `Namespace::from_module_path` never returns `MissingSegments`:
splitting any input on `::` yields at least one (possibly empty) segment.
The empty path, and any path beginning with `::`, instead fail with
`InvalidIdentifier` at segment index 0, because their first segment is the
empty string. -/
theorem from_module_path_never_missing_segments :
    (∀ s : String, Namespace.fromModulePath s ≠ Except.error NamespaceError.missingSegments) ∧
    Namespace.fromModulePath "" = Except.error (NamespaceError.invalidIdentifier 0) ∧
    (∀ cs : List Char, Namespace.fromModulePath (String.mk (':' :: ':' :: cs)) =
      Except.error (NamespaceError.invalidIdentifier 0)) := by
  refine ⟨?_, rfl, ?_⟩
  · intro s h
    simp only [Namespace.fromModulePath, splitDoubleColon] at h
    exact splitAux_ne_nil s.data [] ((namespace_new_missing_iff _).mp h)
  · intro cs
    show Namespace.new (splitDoubleColon (String.mk (':' :: ':' :: cs))) = _
    have hsplit : splitDoubleColon (String.mk (':' :: ':' :: cs)) =
        "" :: splitDoubleColonAux cs [] := by
      simp [splitDoubleColon, splitDoubleColonAux]
    rw [hsplit]
    have h0 : (!isRustIdentifier "") = true := by decide
    have hfi : ("" :: splitDoubleColonAux cs []).findIdx?
        (fun seg => !isRustIdentifier seg) = some 0 := by
      rw [List.findIdx?_cons, if_pos h0]
    simp [Namespace.new, hfi]

/-- C8 (counterexample): running the scenario — the struct `Point` with
fields `x`, `y` of primitive `i32` under namespace `["pkg", "Point"]` —
produces `strings() = ["Point", "pkg", "x", "y"]`: the strings
`"pkg", "Point", "x", "y"` do *not* occur in that claimed order, because
`TypeIdCustom::into_compact` interns the type's name before its namespace
segments. -/
theorem register_struct_strings_order_counterexample :
    registerType envPoint 3 Registry.new 0 = some (rPoint, 1) ∧
    ¬ List.Sublist ["pkg", "Point", "x", "y"] rPoint.strings :=
  ⟨by decide, by decide⟩

/-- C8 (amended): the scenario yields `strings()` containing
`"Point", "pkg", "x", "y"` in first-seen order (the name is interned before
the namespace segments); the string symbols of `"x"` and `"y"` are 3 and 4;
and `definitions()` contains exactly one entry whose `TypeDef` is the
`Struct` variant — with its two fields referencing the string symbols of
`"x"` and `"y"` — next to the entry for the primitive `i32`. -/
theorem register_struct_scenario :
    registerType envPoint 3 Registry.new 0 = some (rPoint, 1) ∧
    rPoint.strings = ["Point", "pkg", "x", "y"] ∧
    rPoint.string_table.internOrGet "x" = ((false, 3), rPoint.string_table) ∧
    rPoint.string_table.internOrGet "y" = ((false, 4), rPoint.string_table) ∧
    (rPoint.definitions.filter (fun td =>
        match td.defn with
        | TypeDef.struct _ => true
        | _ => false)) =
      [⟨TypeId.custom 1 ⟨[2, 1]⟩ [], TypeDef.struct [⟨3, 2⟩, ⟨4, 2⟩]⟩] ∧
    rPoint.definitions =
      [⟨TypeId.custom 1 ⟨[2, 1]⟩ [], TypeDef.struct [⟨3, 2⟩, ⟨4, 2⟩]⟩,
       ⟨TypeId.primitive TypeIdPrimitive.i32, TypeDef.builtin⟩] :=
  ⟨by decide, by decide, by decide, by decide, by decide, by decide⟩

/-- Witness for C10 at a concrete module path. -/
theorem from_module_path_never_missing_segments_witness :
    Namespace.fromModulePath "hello::world" ≠ Except.error NamespaceError.missingSegments :=
  from_module_path_never_missing_segments.1 "hello::world"
